import Mathlib

/-!
Verification of the `xtoken` XML tokenizer (`src/lib.rs`).

The tokenizer is a pull-based scanner over a byte slice.  We embed it
shallowly: byte slices become `List Nat`, the `memchr`/`memchr2`/`memchr3`
primitives become a first-index search, and every Rust operation that can
panic (range slicing, `split_at`, indexing, the `unreachable!` arm, the
`todo!()` placeholder in `builtin`) is modelled explicitly in an
`Except PanicKind` result so that panic-freedom becomes a provable
statement rather than an assumption.
-/

namespace Xtoken

/-- Bytes are modelled as natural numbers (the values that occur in the
tokenizer are ASCII codes, e.g. 60 = `<`, 38 = `&`, 93 = `]`). -/
abbrev Byte := Nat

/-- First index whose byte satisfies `f`; the common core of the `memchr`,
`memchr2` and `memchr3` primitives used by the source. -/
def memchrBy (f : Byte → Bool) : List Byte → Option Nat
  | [] => none
  | b :: bs => if f b then some 0 else (memchrBy f bs).map (· + 1)

/-- `memchr::memchr(c, l)`: index of the first occurrence of `c` in `l`. -/
def memchr (c : Byte) (l : List Byte) : Option Nat :=
  memchrBy (fun b => b = c) l

/-- `memchr::memchr2(c1, c2, l)`: first occurrence of either byte. -/
def memchr2 (c1 c2 : Byte) (l : List Byte) : Option Nat :=
  memchrBy (fun b => b = c1 || b = c2) l

/-- `memchr::memchr3(c1, c2, c3, l)`: first occurrence of any of the three. -/
def memchr3 (c1 c2 c3 : Byte) (l : List Byte) : Option Nat :=
  memchrBy (fun b => b = c1 || b = c2 || b = c3) l

theorem memchrBy_lt {f : Byte → Bool} :
    ∀ {l : List Byte} {p : Nat}, memchrBy f l = some p → p < l.length := by
  intro l
  induction l with
  | nil => intro p h; simp [memchrBy] at h
  | cons b bs ih =>
    intro p h
    simp only [memchrBy] at h
    by_cases hb : f b
    · simp [hb] at h
      simp [← h]
    · simp [hb] at h
      cases hm : memchrBy f bs with
      | none => rw [hm] at h; simp at h
      | some q =>
        rw [hm] at h
        simp at h
        have := ih hm
        simp [List.length_cons]
        omega

theorem memchrBy_get {f : Byte → Bool} :
    ∀ {l : List Byte} {p : Nat}, memchrBy f l = some p →
      ∃ b, l[p]? = some b ∧ f b = true := by
  intro l
  induction l with
  | nil => intro p h; simp [memchrBy] at h
  | cons b bs ih =>
    intro p h
    simp only [memchrBy] at h
    by_cases hb : f b
    · simp [hb] at h
      exact ⟨b, by simp [← h], hb⟩
    · simp [hb] at h
      cases hm : memchrBy f bs with
      | none => rw [hm] at h; simp at h
      | some q =>
        rw [hm] at h
        simp at h
        obtain ⟨c, hc, hfc⟩ := ih hm
        exact ⟨c, by simp [← h, hc], hfc⟩

theorem memchrBy_before {f : Byte → Bool} :
    ∀ {l : List Byte} {p : Nat}, memchrBy f l = some p →
      ∀ j, j < p → ∀ b, l[j]? = some b → f b = false := by
  intro l
  induction l with
  | nil => intro p h; simp [memchrBy] at h
  | cons b bs ih =>
    intro p h j hj c hc
    simp only [memchrBy] at h
    by_cases hb : f b
    · simp [hb] at h; omega
    · simp [hb] at h
      cases hm : memchrBy f bs with
      | none => rw [hm] at h; simp at h
      | some q =>
        rw [hm] at h
        simp at h
        cases j with
        | zero =>
          simp at hc
          rw [← hc]
          simp [hb]
        | succ j' =>
          simp at hc
          exact ih hm j' (by omega) c hc

theorem memchrBy_none {f : Byte → Bool} :
    ∀ {l : List Byte}, memchrBy f l = none → ∀ b ∈ l, f b = false := by
  intro l
  induction l with
  | nil => intro _ b hb; simp at hb
  | cons b bs ih =>
    intro h c hc
    simp only [memchrBy] at h
    by_cases hb : f b
    · simp [hb] at h
    · simp [hb] at h
      rcases List.mem_cons.mp hc with h1 | h1
      · rw [h1]; simp [hb]
      · exact ih h c h1

theorem memchrBy_of_get {f : Byte → Bool} :
    ∀ {l : List Byte} {i : Nat} {b : Byte}, l[i]? = some b → f b = true →
      ∃ p, memchrBy f l = some p ∧ p ≤ i := by
  intro l
  induction l with
  | nil => intro i b h; simp at h
  | cons c cs ih =>
    intro i b h hf
    by_cases hc : f c
    · exact ⟨0, by simp [memchrBy, hc], by omega⟩
    · cases i with
      | zero =>
        simp at h
        rw [h] at hc
        exact absurd hf hc
      | succ i' =>
        simp at h
        obtain ⟨p, hp, hpi⟩ := ih h hf
        exact ⟨p + 1, by simp [memchrBy, hc, hp], by omega⟩

/-- With a witness at `i` and no earlier witness, the search returns `i`
exactly. -/
theorem memchrBy_eq_of {f : Byte → Bool} {l : List Byte} {i : Nat} {b : Byte}
    (h : l[i]? = some b) (hf : f b = true)
    (hmin : ∀ j, j < i → ∀ c, l[j]? = some c → f c = false) :
    memchrBy f l = some i := by
  obtain ⟨p, hp, hpi⟩ := memchrBy_of_get h hf
  rcases Nat.lt_or_ge p i with hlt | hge
  · obtain ⟨c, hc, hfc⟩ := memchrBy_get hp
    have := hmin p hlt c hc
    rw [this] at hfc
    cases hfc
  · have : p = i := by omega
    rw [← this]
    exact hp

/-- The token type of `lib.rs`; each variant carries the matched byte span. -/
inductive Token where
  /-- Non-Syntax -/
  | Span (s : List Byte)
  /-- Entity (i.e. `&...;`) -/
  | Entity (s : List Byte)
  /-- Malformed Tokens -/
  | Error (s : List Byte)
  /-- Processing Instruction (i.e. `<? ... ?>`) -/
  | PI (s : List Byte)
  /-- Comment (i.e. `<!-- ... -->`) -/
  | Comment (s : List Byte)
  /-- Structural Declaration, e.g. `<!DOCTYPE ... >` -/
  | Decl (s : List Byte)
  /-- End of `Decl` with body (e.g. `]>`) -/
  | DeclEnd (s : List Byte)
  /-- Element -/
  | Element (s : List Byte)
  /-- End of Element (i.e. `</...>`) -/
  | ElementEnd (s : List Byte)
deriving DecidableEq, Repr

/-- The byte span carried by a token. -/
def Token.span : Token → List Byte
  | .Span s => s
  | .Entity s => s
  | .Error s => s
  | .PI s => s
  | .Comment s => s
  | .Decl s => s
  | .DeclEnd s => s
  | .Element s => s
  | .ElementEnd s => s

/-- Tokenizer state: the unconsumed remainder and the internal-subset
depth counter, exactly the two fields of the Rust struct. -/
structure Tokenizer where
  rest : List Byte
  depth : Nat
deriving DecidableEq, Repr

/-- `Tokenizer::new` -/
def Tokenizer.new (bytes : List Byte) : Tokenizer :=
  { rest := bytes, depth := 0 }

/-- The distinct panicking branches of the Rust source: the `todo!()`
place-holder in `builtin`, any out-of-bounds slice index / range / split,
and the `unreachable!()` arm of the dispatcher. -/
inductive PanicKind where
  | todoUnhandled
  | indexOob
  | unreachableArm
deriving DecidableEq, Repr

/-- Rust `&l[i..]`: panics (here: `indexOob`) when `i > l.len()`. -/
def sliceFromE (l : List Byte) (i : Nat) : Except PanicKind (List Byte) :=
  if i ≤ l.length then .ok (l.drop i) else .error .indexOob

/-- Rust `l.split_at(i)`: panics when `i > l.len()`. -/
def splitAtE (l : List Byte) (i : Nat) : Except PanicKind (List Byte × List Byte) :=
  if i ≤ l.length then .ok (l.take i, l.drop i) else .error .indexOob

/-- Rust `l[i]`: panics when `i >= l.len()`. -/
def indexE (l : List Byte) (i : Nat) : Except PanicKind Byte :=
  match l[i]? with
  | some b => .ok b
  | none => .error .indexOob

/-- `Tokenizer::rest_err`: consume the whole remainder and return it as an
`Error` token (a `split_at(len)` that can never be out of bounds). -/
def Tokenizer.rest_err (s : Tokenizer) : Token × Tokenizer :=
  (Token.Error s.rest, { s with rest := [] })

/-- `Tokenizer::proc`: the processing-instruction scanner.  The Rust
`loop` is the recursion; `rest` starts just after `<?`.  63 = `?`,
62 = `>`. -/
def Tokenizer.proc (s : Tokenizer) (rest : List Byte) :
    Except PanicKind (Token × Tokenizer) :=
  match hm : memchr 63 rest with
  | some pos =>
    match hs : sliceFromE rest (pos + 1) with
    | .error k => .error k
    | .ok [] => .ok s.rest_err
    | .ok (chr2 :: rest2) =>
      if chr2 = 62 then
        .ok (Token.PI (s.rest.take (s.rest.length - rest2.length)),
             { s with rest := rest2 })
      else
        Tokenizer.proc s (chr2 :: rest2)
  | none => .ok s.rest_err
termination_by rest.length
decreasing_by
  simp only [sliceFromE] at hs
  split at hs
  · have h1 := memchrBy_lt hm
    have h2 := congrArg List.length (Except.ok.inj hs)
    simp at h2
    simp [← h2]
    omega
  · cases hs

/-- `Tokenizer::comment`: the comment scanner.  `rest` starts just after
`<!--`.  45 = `-`, 62 = `>`.  A `-` whose successor is not `-`, or a
`--` not followed by `>`, is skipped and scanning continues. -/
def Tokenizer.comment (s : Tokenizer) (rest : List Byte) :
    Except PanicKind (Token × Tokenizer) :=
  match hm : memchr 45 rest with
  | some pos =>
    match hs : sliceFromE rest (pos + 1) with
    | .error k => .error k
    | .ok [] => .ok s.rest_err
    | .ok (chr2 :: rest2) =>
      if chr2 = 45 then
        if List.isPrefixOf [62] rest2 then
          match splitAtE s.rest (s.rest.length - (rest2.length - 1)) with
          | .error k => .error k
          | .ok (span, rest') => .ok (Token.Comment span, { s with rest := rest' })
        else
          Tokenizer.comment s (chr2 :: rest2)
      else
        Tokenizer.comment s (chr2 :: rest2)
  | none => .ok s.rest_err
termination_by rest.length
decreasing_by
  all_goals
    simp only [sliceFromE] at hs
  all_goals
    split at hs
    · have h1 := memchrBy_lt hm
      have h2 := congrArg List.length (Except.ok.inj hs)
      simp at h2
      simp [← h2]
      omega
    · cases hs

/-- `Tokenizer::decl`: the declaration scanner.  `rest` starts just after
`<!`.  62 = `>`, 91 = `[`; finding `[` increments the depth counter
(checked through the `span[mid - 1]` access of the source). -/
def Tokenizer.decl (s : Tokenizer) (rest : List Byte) :
    Except PanicKind (Token × Tokenizer) :=
  match memchr2 62 91 rest with
  | some pos =>
    let mid := s.rest.length - (rest.length - (pos + 1))
    match splitAtE s.rest mid with
    | .error k => .error k
    | .ok (span, rest') =>
      match indexE span (mid - 1) with
      | .error k => .error k
      | .ok b =>
        .ok (Token.Decl span,
             { rest := rest', depth := if b = 91 then s.depth + 1 else s.depth })
  | none => .ok s.rest_err

/-- `Tokenizer::decl_end`: scans for the `>` closing an internal subset.
62 = `>`. -/
def Tokenizer.decl_end (s : Tokenizer) : Except PanicKind (Token × Tokenizer) :=
  match memchr 62 s.rest with
  | some pos =>
    match splitAtE s.rest (pos + 1) with
    | .error k => .error k
    | .ok (span, rest') => .ok (Token.DeclEnd span, { s with rest := rest' })
  | none => .ok s.rest_err

/-- `Tokenizer::builtin`: sub-dispatch after `<!`.  `--` enters the comment
scanner; an uppercase ASCII letter (65..90) enters the declaration
scanner; end of input is an error; anything else is the `todo!()`
place-holder of the source. -/
def Tokenizer.builtin (s : Tokenizer) (rest : List Byte) :
    Except PanicKind (Token × Tokenizer) :=
  if List.isPrefixOf [45, 45] rest then
    match sliceFromE rest 2 with
    | .error k => .error k
    | .ok rest' => s.comment rest'
  else
    match rest.head? with
    | some b =>
      if 65 ≤ b ∧ b ≤ 90 then s.decl rest
      else .error .todoUnhandled
    | none => .ok s.rest_err

/-- `Tokenizer::entity`: scans for `;` (59). -/
def Tokenizer.entity (s : Tokenizer) : Except PanicKind (Token × Tokenizer) :=
  match memchr 59 s.rest with
  | some pos =>
    match splitAtE s.rest (pos + 1) with
    | .error k => .error k
    | .ok (span, rest') => .ok (Token.Entity span, { s with rest := rest' })
  | none => .ok s.rest_err

/-- `Tokenizer::element`: scans for `>` (62). -/
def Tokenizer.element (s : Tokenizer) : Except PanicKind (Token × Tokenizer) :=
  match memchr 62 s.rest with
  | some pos =>
    match splitAtE s.rest (pos + 1) with
    | .error k => .error k
    | .ok (span, rest') => .ok (Token.Element span, { s with rest := rest' })
  | none => .ok s.rest_err

/-- `Tokenizer::element_end`: scans for `>` (62). -/
def Tokenizer.element_end (s : Tokenizer) : Except PanicKind (Token × Tokenizer) :=
  match memchr 62 s.rest with
  | some pos =>
    match splitAtE s.rest (pos + 1) with
    | .error k => .error k
    | .ok (span, rest') => .ok (Token.ElementEnd span, { s with rest := rest' })
  | none => .ok s.rest_err

/-- `Tokenizer::structure`: dispatch on the byte after `<`.  33 = `!`,
63 = `?`, 47 = `/`.  The `&self.rest[1..]` range slice is modelled
through `sliceFromE`. -/
def Tokenizer.structure_ (s : Tokenizer) : Except PanicKind (Token × Tokenizer) :=
  match sliceFromE s.rest 1 with
  | .error k => .error k
  | .ok inner =>
    match inner with
    | chr :: rest =>
      if chr = 33 then s.builtin rest
      else if chr = 63 then s.proc rest
      else if chr = 47 then s.element_end
      else s.element
    | [] => .ok s.rest_err

/-- Outcome of one `next` call: a token plus successor state, exhaustion,
or a panic of the Rust source. -/
inductive Step where
  | tok (t : Token) (s : Tokenizer)
  | done
  | crash (k : PanicKind)
deriving DecidableEq, Repr

/-- Lift a sub-scanner result into a `Step`. -/
def ofScan : Except PanicKind (Token × Tokenizer) → Step
  | .ok (t, s) => .tok t s
  | .error k => .crash k

/-- `<Tokenizer as Iterator>::next`.  60 = `<`, 38 = `&`, 93 = `]`.  The
marker search includes `]` exactly when the depth counter is non-zero;
`self.rest[pos]` and both `split_at` calls are modelled as checked
operations, and the catch-all match arm is the `unreachable!()` of the
source. -/
def Tokenizer.next (s : Tokenizer) : Step :=
  match (match s.depth with
         | 0 => memchr2 60 38 s.rest
         | _ + 1 => memchr3 60 38 93 s.rest) with
  | some pos =>
    if pos > 0 then
      match splitAtE s.rest pos with
      | .error k => .crash k
      | .ok (span, rest') => .tok (Token.Span span) { s with rest := rest' }
    else
      match indexE s.rest pos with
      | .error k => .crash k
      | .ok first =>
        if first = 38 then ofScan s.entity
        else if first = 60 then ofScan s.structure_
        else if first = 93 then ofScan s.decl_end
        else .crash .unreachableArm
  | none =>
    if s.rest.length > 0 then
      match splitAtE s.rest s.rest.length with
      | .error k => .crash k
      | .ok (span, rest') => .tok (Token.Span span) { s with rest := rest' }
    else
      .done

theorem memchr_lt {c : Byte} {l : List Byte} {p : Nat}
    (h : memchr c l = some p) : p < l.length :=
  memchrBy_lt h

theorem sliceFromE_ok {l : List Byte} {i : Nat} (h : i ≤ l.length) :
    sliceFromE l i = .ok (l.drop i) := by
  simp [sliceFromE, h]

theorem splitAtE_ok {l : List Byte} {i : Nat} (h : i ≤ l.length) :
    splitAtE l i = .ok (l.take i, l.drop i) := by
  simp [splitAtE, h]

theorem indexE_ok {l : List Byte} {i : Nat} {b : Byte} (h : l[i]? = some b) :
    indexE l i = .ok b := by
  simp [indexE, h]

theorem proc_eq_none {s : Tokenizer} {rest : List Byte}
    (h : memchr 63 rest = none) : s.proc rest = .ok s.rest_err := by
  rw [Tokenizer.proc]
  split
  · rename_i pos hm
    rw [h] at hm
    cases hm
  · rfl

theorem proc_eq_nil {s : Tokenizer} {rest : List Byte} {pos : Nat}
    (h : memchr 63 rest = some pos) (hd : rest.drop (pos + 1) = []) :
    s.proc rest = .ok s.rest_err := by
  have hlt : pos + 1 ≤ rest.length := memchr_lt h
  rw [Tokenizer.proc]
  split
  · rename_i pos' hm
    rw [h] at hm
    injection hm with hm
    subst hm
    split
    · rename_i k hs
      simp [sliceFromE_ok hlt] at hs
    · rfl
    · rename_i chr2 rest2 hs
      rw [sliceFromE_ok hlt] at hs
      injection hs with hs
      rw [hd] at hs
      simp at hs
  · rename_i hm
    simp [h] at hm

theorem proc_eq_cons {s : Tokenizer} {rest : List Byte} {pos : Nat}
    {chr2 : Byte} {rest2 : List Byte}
    (h : memchr 63 rest = some pos) (hd : rest.drop (pos + 1) = chr2 :: rest2) :
    s.proc rest =
      if chr2 = 62 then
        .ok (Token.PI (s.rest.take (s.rest.length - rest2.length)),
             { s with rest := rest2 })
      else
        s.proc (chr2 :: rest2) := by
  have hlt : pos + 1 ≤ rest.length := memchr_lt h
  rw [Tokenizer.proc]
  split
  · rename_i pos' hm
    rw [h] at hm
    injection hm with hm
    subst hm
    split
    · rename_i k hs
      simp [sliceFromE_ok hlt] at hs
    · rename_i hs
      rw [sliceFromE_ok hlt] at hs
      injection hs with hs
      rw [hd] at hs
      simp at hs
    · rename_i c2 r2 hs
      rw [sliceFromE_ok hlt] at hs
      injection hs with hs
      rw [hd] at hs
      injection hs with h1 h2
      subst h1
      subst h2
      rfl
  · rename_i hm
    simp [h] at hm

theorem comment_eq_none {s : Tokenizer} {rest : List Byte}
    (h : memchr 45 rest = none) : s.comment rest = .ok s.rest_err := by
  rw [Tokenizer.comment]
  split
  · rename_i pos hm
    rw [h] at hm
    cases hm
  · rfl

theorem comment_eq_nil {s : Tokenizer} {rest : List Byte} {pos : Nat}
    (h : memchr 45 rest = some pos) (hd : rest.drop (pos + 1) = []) :
    s.comment rest = .ok s.rest_err := by
  have hlt : pos + 1 ≤ rest.length := memchr_lt h
  rw [Tokenizer.comment]
  split
  · rename_i pos' hm
    rw [h] at hm
    injection hm with hm
    subst hm
    split
    · rename_i k hs
      simp [sliceFromE_ok hlt] at hs
    · rfl
    · rename_i chr2 rest2 hs
      rw [sliceFromE_ok hlt] at hs
      injection hs with hs
      rw [hd] at hs
      simp at hs
  · rename_i hm
    simp [h] at hm

theorem comment_eq_cons {s : Tokenizer} {rest : List Byte} {pos : Nat}
    {chr2 : Byte} {rest2 : List Byte}
    (h : memchr 45 rest = some pos) (hd : rest.drop (pos + 1) = chr2 :: rest2) :
    s.comment rest =
      if chr2 = 45 then
        if List.isPrefixOf [62] rest2 then
          .ok (Token.Comment (s.rest.take (s.rest.length - (rest2.length - 1))),
               { s with rest := s.rest.drop (s.rest.length - (rest2.length - 1)) })
        else
          s.comment (chr2 :: rest2)
      else
        s.comment (chr2 :: rest2) := by
  have hlt : pos + 1 ≤ rest.length := memchr_lt h
  rw [Tokenizer.comment]
  split
  · rename_i pos' hm
    rw [h] at hm
    injection hm with hm
    subst hm
    split
    · rename_i k hs
      simp [sliceFromE_ok hlt] at hs
    · rename_i hs
      rw [sliceFromE_ok hlt] at hs
      injection hs with hs
      rw [hd] at hs
      simp at hs
    · rename_i c2 r2 hs
      rw [sliceFromE_ok hlt] at hs
      injection hs with hs
      rw [hd] at hs
      injection hs with h1 h2
      subst h1
      subst h2
      split
      · split
        · rw [splitAtE_ok (by omega)]
        · rfl
      · rfl
  · rename_i hm
    simp [h] at hm

/-- Depth evolution of one production: the counter is bumped by one exactly
when a `Decl` token whose span ends with `[` (91) is produced. -/
def declBump (d : Nat) : Token → Nat
  | Token.Decl sp => if sp.getLast? = some 91 then d + 1 else d
  | _ => d

/-- What one successful production step guarantees: the produced span is the
consumed prefix of the remainder, it is non-empty, the depth counter evolves
by `declBump`, and an `Error` token carries the whole remainder and leaves
the tokenizer empty. -/
def StepSpec (s : Tokenizer) (t : Token) (s' : Tokenizer) : Prop :=
  s.rest = t.span ++ s'.rest ∧
  t.span ≠ [] ∧
  s'.depth = declBump s.depth t ∧
  (∀ sp, t = Token.Error sp → sp = s.rest ∧ s'.rest = [])

/-- A sub-scanner additionally never produces a `Span` token. -/
def ScanOk (s : Tokenizer) (t : Token) (s' : Tokenizer) : Prop :=
  StepSpec s t s' ∧ ∀ sp, t ≠ Token.Span sp

theorem take_append_drop_self (n : Nat) (l : List Byte) :
    l = l.take n ++ l.drop n := (List.take_append_drop n l).symm

theorem take_ne_nil_of {n : Nat} {l : List Byte} (hn : 0 < n) (hl : l ≠ []) :
    l.take n ≠ [] := by
  intro h
  have := congrArg List.length h
  simp at this
  rcases this with h1 | h1
  · omega
  · exact hl h1

theorem rest_err_scan {s : Tokenizer} (h : s.rest ≠ []) :
    ScanOk s (Token.Error s.rest) { s with rest := [] } := by
  refine ⟨⟨by simp [Token.span], by simpa [Token.span] using h, by simp [declBump], ?_⟩, ?_⟩
  · intro sp hsp
    injection hsp with hsp
    exact ⟨hsp.symm, rfl⟩
  · intro sp hsp
    cases hsp

theorem entity_scan {s : Tokenizer} (h : s.rest ≠ []) :
    ∃ t s', s.entity = .ok (t, s') ∧ ScanOk s t s' := by
  cases hm : memchr 59 s.rest with
  | none =>
    refine ⟨Token.Error s.rest, { s with rest := [] }, ?_, rest_err_scan h⟩
    simp [Tokenizer.entity, hm, Tokenizer.rest_err]
  | some pos =>
    have hlt : pos + 1 ≤ s.rest.length := memchr_lt hm
    refine ⟨Token.Entity (s.rest.take (pos + 1)), { s with rest := s.rest.drop (pos + 1) },
           ?_, ⟨⟨?_, ?_, ?_, ?_⟩, ?_⟩⟩
    · simp [Tokenizer.entity, hm, splitAtE_ok hlt]
    · simpa [Token.span] using take_append_drop_self (pos + 1) s.rest
    · show s.rest.take (pos + 1) ≠ []
      exact take_ne_nil_of (by omega) h
    · simp [declBump]
    · intro sp hsp; cases hsp
    · intro sp hsp; cases hsp

theorem element_scan {s : Tokenizer} (h : s.rest ≠ []) :
    ∃ t s', s.element = .ok (t, s') ∧ ScanOk s t s' := by
  cases hm : memchr 62 s.rest with
  | none =>
    refine ⟨Token.Error s.rest, { s with rest := [] }, ?_, rest_err_scan h⟩
    simp [Tokenizer.element, hm, Tokenizer.rest_err]
  | some pos =>
    have hlt : pos + 1 ≤ s.rest.length := memchr_lt hm
    refine ⟨Token.Element (s.rest.take (pos + 1)), { s with rest := s.rest.drop (pos + 1) },
           ?_, ⟨⟨?_, ?_, ?_, ?_⟩, ?_⟩⟩
    · simp [Tokenizer.element, hm, splitAtE_ok hlt]
    · simpa [Token.span] using take_append_drop_self (pos + 1) s.rest
    · show s.rest.take (pos + 1) ≠ []
      exact take_ne_nil_of (by omega) h
    · simp [declBump]
    · intro sp hsp; cases hsp
    · intro sp hsp; cases hsp

theorem element_end_scan {s : Tokenizer} (h : s.rest ≠ []) :
    ∃ t s', s.element_end = .ok (t, s') ∧ ScanOk s t s' := by
  cases hm : memchr 62 s.rest with
  | none =>
    refine ⟨Token.Error s.rest, { s with rest := [] }, ?_, rest_err_scan h⟩
    simp [Tokenizer.element_end, hm, Tokenizer.rest_err]
  | some pos =>
    have hlt : pos + 1 ≤ s.rest.length := memchr_lt hm
    refine ⟨Token.ElementEnd (s.rest.take (pos + 1)), { s with rest := s.rest.drop (pos + 1) },
           ?_, ⟨⟨?_, ?_, ?_, ?_⟩, ?_⟩⟩
    · simp [Tokenizer.element_end, hm, splitAtE_ok hlt]
    · simpa [Token.span] using take_append_drop_self (pos + 1) s.rest
    · show s.rest.take (pos + 1) ≠ []
      exact take_ne_nil_of (by omega) h
    · simp [declBump]
    · intro sp hsp; cases hsp
    · intro sp hsp; cases hsp

theorem decl_end_scan {s : Tokenizer} (h : s.rest ≠ []) :
    ∃ t s', s.decl_end = .ok (t, s') ∧ ScanOk s t s' := by
  cases hm : memchr 62 s.rest with
  | none =>
    refine ⟨Token.Error s.rest, { s with rest := [] }, ?_, rest_err_scan h⟩
    simp [Tokenizer.decl_end, hm, Tokenizer.rest_err]
  | some pos =>
    have hlt : pos + 1 ≤ s.rest.length := memchr_lt hm
    refine ⟨Token.DeclEnd (s.rest.take (pos + 1)), { s with rest := s.rest.drop (pos + 1) },
           ?_, ⟨⟨?_, ?_, ?_, ?_⟩, ?_⟩⟩
    · simp [Tokenizer.decl_end, hm, splitAtE_ok hlt]
    · simpa [Token.span] using take_append_drop_self (pos + 1) s.rest
    · show s.rest.take (pos + 1) ≠ []
      exact take_ne_nil_of (by omega) h
    · simp [declBump]
    · intro sp hsp; cases hsp
    · intro sp hsp; cases hsp

theorem decl_scan {s : Tokenizer} {rest : List Byte}
    (hrest : rest = s.rest.drop 2) (hlen : 2 ≤ s.rest.length) :
    ∃ t s', s.decl rest = .ok (t, s') ∧ ScanOk s t s' := by
  have hne : s.rest ≠ [] := by
    intro h
    rw [h] at hlen
    simp at hlen
  cases hm : memchr2 62 91 rest with
  | none =>
    refine ⟨_, _, ?_, rest_err_scan hne⟩
    simp [Tokenizer.decl, hm, Tokenizer.rest_err]
  | some pos =>
    have hlt : pos < rest.length := memchrBy_lt hm
    have hrl : rest.length = s.rest.length - 2 := by rw [hrest]; simp
    have hmid3 : s.rest.length - (rest.length - (pos + 1)) = pos + 3 := by omega
    have hmidle : pos + 3 ≤ s.rest.length := by omega
    obtain ⟨bv, hb⟩ : ∃ b, s.rest[pos + 2]? = some b :=
      ⟨_, List.getElem?_eq_getElem (by omega)⟩
    have hspanb : (s.rest.take (pos + 3))[pos + 2]? = some bv := by
      rw [List.getElem?_take]
      simp [hb]
    have hlast : (s.rest.take (pos + 3)).getLast? = some bv := by
      rw [List.getLast?_eq_getElem? _]
      have : (s.rest.take (pos + 3)).length = pos + 3 := by
        simp [List.length_take]
        omega
      rw [this]
      exact hspanb
    refine ⟨Token.Decl (s.rest.take (pos + 3)),
           { rest := s.rest.drop (pos + 3),
             depth := if bv = 91 then s.depth + 1 else s.depth },
           ?_, ⟨⟨?_, ?_, ?_, ?_⟩, ?_⟩⟩
    · simp only [Tokenizer.decl, hm, hmid3, splitAtE_ok hmidle]
      rw [show pos + 3 - 1 = pos + 2 from rfl, indexE_ok hspanb]
    · simpa [Token.span] using take_append_drop_self (pos + 3) s.rest
    · show s.rest.take (pos + 3) ≠ []
      exact take_ne_nil_of (by omega) hne
    · simp only [declBump, hlast]
      by_cases h91 : bv = 91
      · simp [h91]
      · simp [h91]
    · intro sp hsp; cases hsp
    · intro sp hsp; cases hsp

theorem proc_scan {s : Tokenizer} :
    ∀ n (rest : List Byte), rest.length ≤ n → rest <:+ s.rest → s.rest ≠ [] →
      ∃ t s', s.proc rest = .ok (t, s') ∧ ScanOk s t s' := by
  intro n
  induction n with
  | zero =>
    intro rest hlen hsuf hne
    have hrest : rest = [] := by
      cases rest with
      | nil => rfl
      | cons a l => simp at hlen
    subst hrest
    exact ⟨_, _, proc_eq_none rfl, rest_err_scan hne⟩
  | succ n ih =>
    intro rest hlen hsuf hne
    cases hm : memchr 63 rest with
    | none => exact ⟨_, _, proc_eq_none hm, rest_err_scan hne⟩
    | some pos =>
      have hlt : pos < rest.length := memchrBy_lt hm
      cases hd : rest.drop (pos + 1) with
      | nil => exact ⟨_, _, proc_eq_nil hm hd, rest_err_scan hne⟩
      | cons chr2 rest2 =>
        have hdl : rest2.length + 1 = rest.length - (pos + 1) := by
          have := congrArg List.length hd
          simp at this
          omega
        have hsuf2 : (chr2 :: rest2) <:+ s.rest :=
          (hd ▸ List.drop_suffix (pos + 1) rest).trans hsuf
        by_cases hc : chr2 = 62
        · obtain ⟨p, hp⟩ := hsuf2
          have hr2suf : rest2 <:+ s.rest := ⟨p ++ [chr2], by simp [hp]⟩
          obtain ⟨q, hq⟩ := hr2suf
          have hql : q.length = s.rest.length - rest2.length := by
            have := congrArg List.length hq
            simp at this
            omega
          have htake : s.rest.take (s.rest.length - rest2.length) = q := by
            rw [← hql, ← hq]
            exact List.take_left q rest2
          have hqne : q ≠ [] := by
            intro h0
            rw [h0] at hq
            simp at hq
            have h1 := congrArg List.length hp
            rw [← hq] at h1
            simp at h1
            omega
          refine ⟨Token.PI (s.rest.take (s.rest.length - rest2.length)),
                 { s with rest := rest2 }, ?_, ⟨⟨?_, ?_, ?_, ?_⟩, ?_⟩⟩
          · rw [proc_eq_cons hm hd]
            simp [hc]
          · simp only [Token.span]
            rw [htake, hq]
          · show s.rest.take (s.rest.length - rest2.length) ≠ []
            rw [htake]
            exact hqne
          · simp [declBump]
          · intro sp hsp; cases hsp
          · intro sp hsp; cases hsp
        · obtain ⟨t, s', hok, hscan⟩ := ih (chr2 :: rest2) (by simp; omega) hsuf2 hne
          refine ⟨t, s', ?_, hscan⟩
          rw [proc_eq_cons hm hd]
          simp [hc]
          exact hok

theorem comment_scan {s : Tokenizer} :
    ∀ n (rest : List Byte), rest.length ≤ n → rest <:+ s.rest → s.rest ≠ [] →
      ∃ t s', s.comment rest = .ok (t, s') ∧ ScanOk s t s' := by
  intro n
  induction n with
  | zero =>
    intro rest hlen hsuf hne
    have hrest : rest = [] := by
      cases rest with
      | nil => rfl
      | cons a l => simp at hlen
    subst hrest
    exact ⟨_, _, comment_eq_none rfl, rest_err_scan hne⟩
  | succ n ih =>
    intro rest hlen hsuf hne
    cases hm : memchr 45 rest with
    | none => exact ⟨_, _, comment_eq_none hm, rest_err_scan hne⟩
    | some pos =>
      have hlt : pos < rest.length := memchrBy_lt hm
      cases hd : rest.drop (pos + 1) with
      | nil => exact ⟨_, _, comment_eq_nil hm hd, rest_err_scan hne⟩
      | cons chr2 rest2 =>
        have hdl : rest2.length + 1 = rest.length - (pos + 1) := by
          have := congrArg List.length hd
          simp at this
          omega
        have hsuf2 : (chr2 :: rest2) <:+ s.rest :=
          (hd ▸ List.drop_suffix (pos + 1) rest).trans hsuf
        have hr2len : rest2.length + 1 ≤ s.rest.length := by
          have := hsuf2.length_le
          simp at this
          omega
        by_cases hc : chr2 = 45
        · by_cases hpre : List.isPrefixOf [62] rest2 = true
          · refine ⟨Token.Comment (s.rest.take (s.rest.length - (rest2.length - 1))),
                   { s with rest := s.rest.drop (s.rest.length - (rest2.length - 1)) },
                   ?_, ⟨⟨?_, ?_, ?_, ?_⟩, ?_⟩⟩
            · rw [comment_eq_cons hm hd]
              simp [hc, hpre]
            · simpa [Token.span] using
                take_append_drop_self (s.rest.length - (rest2.length - 1)) s.rest
            · show s.rest.take (s.rest.length - (rest2.length - 1)) ≠ []
              refine take_ne_nil_of ?_ hne
              omega
            · simp [declBump]
            · intro sp hsp; cases hsp
            · intro sp hsp; cases hsp
          · obtain ⟨t, s', hok, hscan⟩ := ih (chr2 :: rest2) (by simp; omega) hsuf2 hne
            refine ⟨t, s', ?_, hscan⟩
            rw [comment_eq_cons hm hd]
            simp only [hc, hpre]
            simpa [hc] using hok
        · obtain ⟨t, s', hok, hscan⟩ := ih (chr2 :: rest2) (by simp; omega) hsuf2 hne
          refine ⟨t, s', ?_, hscan⟩
          rw [comment_eq_cons hm hd]
          simp [hc]
          exact hok

theorem builtin_scan {s : Tokenizer} {rest : List Byte}
    (hrest : rest = s.rest.drop 2) (hlen : 2 ≤ s.rest.length) :
    (∃ t s', s.builtin rest = .ok (t, s') ∧ ScanOk s t s') ∨
    (s.builtin rest = .error .todoUnhandled ∧
      ∃ b tail, rest = b :: tail ∧
        List.isPrefixOf [45, 45] rest = false ∧ ¬(65 ≤ b ∧ b ≤ 90)) := by
  have hne : s.rest ≠ [] := by
    intro h0
    rw [h0] at hlen
    simp at hlen
  by_cases hpre : List.isPrefixOf [45, 45] rest = true
  · left
    have hp : [45, 45] <+: rest := by
      exact List.isPrefixOf_iff_prefix.mp hpre
    obtain ⟨t0, ht0⟩ := hp
    have h2 : 2 ≤ rest.length := by
      rw [← ht0]
      simp
    have hdrop : rest.drop 2 = s.rest.drop 4 := by
      rw [hrest, List.drop_drop]
    have hsuf : rest.drop 2 <:+ s.rest := hdrop ▸ List.drop_suffix 4 s.rest
    obtain ⟨t, s', hok, hscan⟩ :=
      comment_scan (rest.drop 2).length (rest.drop 2) le_rfl hsuf hne
    refine ⟨t, s', ?_, hscan⟩
    simp only [Tokenizer.builtin, hpre, if_true, sliceFromE_ok h2]
    exact hok
  · have hpre' : List.isPrefixOf [45, 45] rest = false := by
      rw [Bool.eq_false_iff]
      exact hpre
    cases hh : rest.head? with
    | none =>
      left
      have hr0 : rest = [] := by
        cases rest with
        | nil => rfl
        | cons a l => simp at hh
      refine ⟨_, _, ?_, rest_err_scan hne⟩
      simp [Tokenizer.builtin, hpre', hr0, Tokenizer.rest_err]
    | some b =>
      obtain ⟨tail, htail⟩ : ∃ tail, rest = b :: tail := by
        cases rest with
        | nil => simp at hh
        | cons a l =>
          simp at hh
          exact ⟨l, by rw [hh]⟩
      by_cases hup : 65 ≤ b ∧ b ≤ 90
      · left
        obtain ⟨t, s', hok, hscan⟩ := decl_scan hrest hlen
        refine ⟨t, s', ?_, hscan⟩
        simp only [Tokenizer.builtin, hpre', Bool.false_eq_true, if_false, hh, hup, if_true]
        exact hok
      · right
        refine ⟨?_, b, tail, htail, hpre', hup⟩
        simp only [Tokenizer.builtin, hpre', Bool.false_eq_true, if_false, hh, hup, if_false]

theorem structure_scan {s : Tokenizer} (hne : s.rest ≠ []) :
    (∃ t s', s.structure_ = .ok (t, s') ∧ ScanOk s t s') ∨
    (s.structure_ = .error .todoUnhandled ∧
      ∃ b tail, s.rest.drop 1 = 33 :: b :: tail ∧
        List.isPrefixOf [45, 45] (b :: tail) = false ∧ ¬(65 ≤ b ∧ b ≤ 90)) := by
  have h1 : 1 ≤ s.rest.length := by
    cases hr : s.rest with
    | nil => exact absurd hr hne
    | cons a l => simp
  cases hi : s.rest.drop 1 with
  | nil =>
    left
    refine ⟨_, _, ?_, rest_err_scan hne⟩
    simp [Tokenizer.structure_, sliceFromE_ok h1, hi, Tokenizer.rest_err]
  | cons chr rest =>
    have hrest2 : rest = s.rest.drop 2 := by
      have h2 := congrArg (List.drop 1) hi
      rw [List.drop_drop] at h2
      simpa using h2.symm
    have hlen2 : 2 ≤ s.rest.length := by
      have h3 := congrArg List.length hi
      simp at h3
      omega
    by_cases h33 : chr = 33
    · rcases builtin_scan hrest2 hlen2 with ⟨t, s', hok, hscan⟩ | ⟨herr, b, tail, hsh, hp, hu⟩
      · left
        refine ⟨t, s', ?_, hscan⟩
        simp only [Tokenizer.structure_, sliceFromE_ok h1, hi, h33, if_true]
        exact hok
      · right
        constructor
        · simp only [Tokenizer.structure_, sliceFromE_ok h1, hi, h33, if_true]
          exact herr
        · refine ⟨b, tail, ?_, by rw [← hsh]; exact hp, hu⟩
          first
          | rw [hi, h33, hsh]
          | rw [h33, hsh]
    · by_cases h63 : chr = 63
      · left
        have hsuf : rest <:+ s.rest := hrest2 ▸ List.drop_suffix 2 s.rest
        obtain ⟨t, s', hok, hscan⟩ := proc_scan rest.length rest le_rfl hsuf hne
        refine ⟨t, s', ?_, hscan⟩
        simp only [Tokenizer.structure_, sliceFromE_ok h1, hi, h33, if_false, h63, if_true]
        exact hok
      · by_cases h47 : chr = 47
        · left
          obtain ⟨t, s', hok, hscan⟩ := element_end_scan hne
          refine ⟨t, s', ?_, hscan⟩
          simp only [Tokenizer.structure_, sliceFromE_ok h1, hi, h33, if_false, h63, h47, if_true]
          exact hok
        · left
          obtain ⟨t, s', hok, hscan⟩ := element_scan hne
          refine ⟨t, s', ?_, hscan⟩
          simp only [Tokenizer.structure_, sliceFromE_ok h1, hi, h33, if_false, h63, h47]
          exact hok

theorem marker_lt {s : Tokenizer} {pos : Nat}
    (h : (match s.depth with
          | 0 => memchr2 60 38 s.rest
          | _ + 1 => memchr3 60 38 93 s.rest) = some pos) :
    pos < s.rest.length := by
  cases hd : s.depth with
  | zero =>
    rw [hd] at h
    exact memchrBy_lt h
  | succ n =>
    rw [hd] at h
    exact memchrBy_lt h

theorem next_nil {s : Tokenizer} (h : s.rest = []) : s.next = .done := by
  unfold Tokenizer.next
  cases hd : s.depth with
  | zero => simp [hd, h, memchr2, memchrBy]
  | succ n => simp [hd, h, memchr3, memchrBy]

/-- Master lemma: every token actually produced by `next` satisfies
`StepSpec` (consumed-prefix, non-empty span, depth evolution, terminal
error). -/
theorem next_spec {s : Tokenizer} {t : Token} {s' : Tokenizer}
    (h : s.next = .tok t s') : StepSpec s t s' := by
  unfold Tokenizer.next at h
  split at h
  · rename_i pos hm
    have hlt : pos < s.rest.length := marker_lt hm
    have hne : s.rest ≠ [] := by
      intro h0
      rw [h0] at hlt
      simp at hlt
    by_cases hpos : pos > 0
    · rw [if_pos hpos, splitAtE_ok (le_of_lt hlt)] at h
      injection h with h1 h2
      subst h1
      subst h2
      refine ⟨take_append_drop_self pos s.rest, ?_, by simp [declBump], ?_⟩
      · show s.rest.take pos ≠ []
        exact take_ne_nil_of hpos hne
      · intro sp hsp
        cases hsp
    · rw [if_neg hpos] at h
      have hpos0 : pos = 0 := by omega
      subst hpos0
      obtain ⟨first, hf⟩ : ∃ b, s.rest[0]? = some b := by
        cases hr : s.rest with
        | nil => exact absurd hr hne
        | cons a l => exact ⟨a, by simp [hr]⟩
      rw [indexE_ok hf] at h
      dsimp only at h
      by_cases h38 : first = 38
      · rw [if_pos h38] at h
        obtain ⟨t0, s0, hok, hscan⟩ := entity_scan hne
        rw [hok] at h
        simp only [ofScan] at h
        injection h with h1 h2
        subst h1
        subst h2
        exact hscan.1
      · rw [if_neg h38] at h
        by_cases h60 : first = 60
        · rw [if_pos h60] at h
          rcases structure_scan hne with ⟨t0, s0, hok, hscan⟩ | ⟨herr, _⟩
          · rw [hok] at h
            simp only [ofScan] at h
            injection h with h1 h2
            subst h1
            subst h2
            exact hscan.1
          · rw [herr] at h
            simp only [ofScan] at h
            cases h
        · rw [if_neg h60] at h
          by_cases h93 : first = 93
          · rw [if_pos h93] at h
            obtain ⟨t0, s0, hok, hscan⟩ := decl_end_scan hne
            rw [hok] at h
            simp only [ofScan] at h
            injection h with h1 h2
            subst h1
            subst h2
            exact hscan.1
          · rw [if_neg h93] at h
            cases h
  · rename_i hm
    by_cases hlen : s.rest.length > 0
    · have hne : s.rest ≠ [] := by
        intro h0
        rw [h0] at hlen
        simp at hlen
      rw [if_pos hlen, splitAtE_ok le_rfl] at h
      injection h with h1 h2
      subst h1
      subst h2
      refine ⟨take_append_drop_self s.rest.length s.rest, ?_, by simp [declBump], ?_⟩
      · show s.rest.take s.rest.length ≠ []
        exact take_ne_nil_of hlen hne
      · intro sp hsp
        cases hsp
    · rw [if_neg hlen] at h
      cases h

/-- Master panic lemma: the only way `next` can reach a panicking branch is
the `todo!()` place-holder, and only when the remainder starts with `<!`
followed by a byte that opens neither a comment nor a declaration. -/
theorem next_crash {s : Tokenizer} {k : PanicKind}
    (h : s.next = .crash k) :
    k = .todoUnhandled ∧
    ∃ b tail, s.rest = 60 :: 33 :: b :: tail ∧
      List.isPrefixOf [45, 45] (b :: tail) = false ∧ ¬(65 ≤ b ∧ b ≤ 90) := by
  unfold Tokenizer.next at h
  split at h
  · rename_i pos hm
    have hlt : pos < s.rest.length := marker_lt hm
    have hne : s.rest ≠ [] := by
      intro h0
      rw [h0] at hlt
      simp at hlt
    by_cases hpos : pos > 0
    · rw [if_pos hpos, splitAtE_ok (le_of_lt hlt)] at h
      cases h
    · rw [if_neg hpos] at h
      have hpos0 : pos = 0 := by omega
      subst hpos0
      obtain ⟨first, hf⟩ : ∃ b, s.rest[0]? = some b := by
        cases hr : s.rest with
        | nil => exact absurd hr hne
        | cons a l => exact ⟨a, by simp [hr]⟩
      rw [indexE_ok hf] at h
      dsimp only at h
      by_cases h38 : first = 38
      · rw [if_pos h38] at h
        obtain ⟨t0, s0, hok, hscan⟩ := entity_scan hne
        rw [hok] at h
        simp only [ofScan] at h
        cases h
      · rw [if_neg h38] at h
        by_cases h60 : first = 60
        · rw [if_pos h60] at h
          rcases structure_scan hne with ⟨t0, s0, hok, hscan⟩ | ⟨herr, b, tail, hsh, hp, hu⟩
          · rw [hok] at h
            simp only [ofScan] at h
            cases h
          · rw [herr] at h
            simp only [ofScan] at h
            injection h with h1
            refine ⟨h1.symm, b, tail, ?_, hp, hu⟩
            have hcons : s.rest = first :: s.rest.drop 1 := by
              cases hr : s.rest with
              | nil => exact absurd hr hne
              | cons a l =>
                rw [hr] at hf
                simp at hf
                simp [hf]
            rw [hcons, hsh, h60]
        · rw [if_neg h60] at h
          by_cases h93 : first = 93
          · rw [if_pos h93] at h
            obtain ⟨t0, s0, hok, hscan⟩ := decl_end_scan hne
            rw [hok] at h
            simp only [ofScan] at h
            cases h
          · rw [if_neg h93] at h
            exfalso
            cases hd : s.depth with
            | zero =>
              rw [hd] at hm
              obtain ⟨b, hb, hfb⟩ := memchrBy_get hm
              rw [hf] at hb
              injection hb with hb
              subst hb
              simp at hfb
              rcases hfb with h1 | h1
              · exact h60 h1
              · exact h38 h1
            | succ n =>
              rw [hd] at hm
              obtain ⟨b, hb, hfb⟩ := memchrBy_get hm
              rw [hf] at hb
              injection hb with hb
              subst hb
              simp at hfb
              rcases hfb with (h1 | h1) | h1
              · exact h60 h1
              · exact h38 h1
              · exact h93 h1
  · rename_i hm
    by_cases hlen : s.rest.length > 0
    · rw [if_pos hlen, splitAtE_ok le_rfl] at h
      cases h
    · rw [if_neg hlen] at h
      cases h

/-- Monotonic consumption: every produced token strictly shrinks the
remainder. -/
theorem next_tok_rest_lt {s : Tokenizer} {t : Token} {s' : Tokenizer}
    (h : s.next = .tok t s') : s'.rest.length < s.rest.length := by
  obtain ⟨hpre, hne, _, _⟩ := next_spec h
  have hl := congrArg List.length hpre
  simp at hl
  have : 0 < t.span.length := List.length_pos.mpr hne
  omega

/-- How a full tokenization ends: normally exhausted, or in one of the
source's panics. -/
inductive RunEnd where
  | finished
  | crashed (k : PanicKind)
deriving DecidableEq, Repr

/-- Drive the tokenizer to exhaustion (`Iterator::collect`), recording the
produced tokens in order and how the iteration ended. -/
def Tokenizer.run (s : Tokenizer) : List Token × RunEnd :=
  match h : s.next with
  | .done => ([], .finished)
  | .crash k => ([], .crashed k)
  | .tok t s' =>
    let r := s'.run
    (t :: r.1, r.2)
termination_by s.rest.length
decreasing_by exact next_tok_rest_lt h

/-- Concatenation of the spans of a token list. -/
def spanConcat : List Token → List Byte
  | [] => []
  | t :: ts => t.span ++ spanConcat ts

theorem run_done {s : Tokenizer} (h : s.next = .done) :
    s.run = ([], .finished) := by
  rw [Tokenizer.run]
  split
  · rfl
  · rename_i k hk
    rw [h] at hk
    cases hk
  · rename_i t s' ht
    rw [h] at ht
    cases ht

theorem run_crash {s : Tokenizer} {k : PanicKind} (h : s.next = .crash k) :
    s.run = ([], .crashed k) := by
  rw [Tokenizer.run]
  split
  · rename_i hd
    rw [h] at hd
    cases hd
  · rename_i k' hk
    rw [h] at hk
    injection hk with hk
    rw [hk]
  · rename_i t s' ht
    rw [h] at ht
    cases ht

theorem run_tok {s : Tokenizer} {t : Token} {s' : Tokenizer}
    (h : s.next = .tok t s') :
    s.run = (t :: (s'.run).1, (s'.run).2) := by
  rw [Tokenizer.run]
  split
  · rename_i hd
    rw [h] at hd
    cases hd
  · rename_i k' hk
    rw [h] at hk
    cases hk
  · rename_i t0 s0 ht
    rw [h] at ht
    injection ht with h1 h2
    subst h1
    subst h2
    rfl

theorem ofScan_ne_done (e : Except PanicKind (Token × Tokenizer)) :
    ofScan e ≠ .done := by
  cases e with
  | ok p =>
    cases p
    simp [ofScan]
  | error k => simp [ofScan]

/-- `next` signals exhaustion only on an empty remainder. -/
theorem next_done_rest_nil {s : Tokenizer} (h : s.next = .done) :
    s.rest = [] := by
  unfold Tokenizer.next at h
  split at h
  · rename_i pos hm
    have hlt : pos < s.rest.length := marker_lt hm
    have hne : s.rest ≠ [] := by
      intro h0
      rw [h0] at hlt
      simp at hlt
    by_cases hpos : pos > 0
    · rw [if_pos hpos, splitAtE_ok (le_of_lt hlt)] at h
      cases h
    · rw [if_neg hpos] at h
      obtain ⟨first, hf⟩ : ∃ b, s.rest[0]? = some b := by
        cases hr : s.rest with
        | nil => exact absurd hr hne
        | cons a l => exact ⟨a, by simp [hr]⟩
      have hpos0 : pos = 0 := by omega
      subst hpos0
      rw [indexE_ok hf] at h
      dsimp only at h
      by_cases h38 : first = 38
      · rw [if_pos h38] at h
        exact absurd h (ofScan_ne_done _)
      · rw [if_neg h38] at h
        by_cases h60 : first = 60
        · rw [if_pos h60] at h
          exact absurd h (ofScan_ne_done _)
        · rw [if_neg h60] at h
          by_cases h93 : first = 93
          · rw [if_pos h93] at h
            exact absurd h (ofScan_ne_done _)
          · rw [if_neg h93] at h
            cases h
  · rename_i hm
    by_cases hlen : s.rest.length > 0
    · rw [if_pos hlen, splitAtE_ok le_rfl] at h
      cases h
    · have : s.rest.length = 0 := by omega
      exact List.eq_nil_of_length_eq_zero this

/-- If a run ends normally, the concatenation of all produced spans is the
initial remainder. -/
theorem run_partition : ∀ n (s : Tokenizer), s.rest.length ≤ n →
    (s.run).2 = .finished → spanConcat (s.run).1 = s.rest := by
  intro n
  induction n with
  | zero =>
    intro s hlen _
    have hnil : s.rest = [] := by
      cases hr : s.rest with
      | nil => rfl
      | cons a l =>
        rw [hr] at hlen
        simp at hlen
    rw [run_done (next_nil hnil), hnil]
    rfl
  | succ n ih =>
    intro s hlen hfin
    cases hn : s.next with
    | done =>
      rw [run_done hn, next_done_rest_nil hn]
      rfl
    | crash k =>
      rw [run_crash hn] at hfin
      cases hfin
    | tok t s' =>
      have hlt := next_tok_rest_lt hn
      rw [run_tok hn] at hfin ⊢
      obtain ⟨hpre, _, _, _⟩ := next_spec hn
      show t.span ++ spanConcat (s'.run).1 = s.rest
      rw [ih s' (by omega) hfin, hpre]

/-- A run produces at most one token per remaining byte. -/
theorem run_length : ∀ n (s : Tokenizer), s.rest.length ≤ n →
    (s.run).1.length ≤ s.rest.length := by
  intro n
  induction n with
  | zero =>
    intro s hlen
    have hnil : s.rest = [] := by
      cases hr : s.rest with
      | nil => rfl
      | cons a l =>
        rw [hr] at hlen
        simp at hlen
    rw [run_done (next_nil hnil)]
    simp
  | succ n ih =>
    intro s hlen
    cases hn : s.next with
    | done =>
      rw [run_done hn]
      simp
    | crash k =>
      rw [run_crash hn]
      simp
    | tok t s' =>
      have hlt := next_tok_rest_lt hn
      rw [run_tok hn]
      have := ih s' (by omega)
      simp only [List.length_cons]
      omega

theorem mem_take_getElem? {l : List Byte} {n : Nat} {a : Byte} (h : a ∈ l.take n) :
    ∃ i, i < n ∧ l[i]? = some a := by
  obtain ⟨i, hi, he⟩ := List.mem_iff_getElem.mp h
  have hin : i < n := by
    simp [List.length_take] at hi
    omega
  refine ⟨i, hin, ?_⟩
  have h2 : (l.take n)[i]? = some a := by
    rw [List.getElem?_eq_getElem hi, he]
  rw [List.getElem?_take, if_pos hin] at h2
  exact h2

theorem isPrefixOf62 {l : List Byte} :
    List.isPrefixOf [62] l = true ↔ l[0]? = some 62 := by
  cases l with
  | nil => simp [List.isPrefixOf]
  | cons a t =>
    simp [List.isPrefixOf]
    exact eq_comm

/-- The exact three-byte comment terminator `-->` occurs at index `i`. -/
def dashDashGt (l : List Byte) (i : Nat) : Prop :=
  l[i]? = some 45 ∧ l[i + 1]? = some 45 ∧ l[i + 2]? = some 62

instance (l : List Byte) (i : Nat) : Decidable (dashDashGt l i) := by
  unfold dashDashGt
  infer_instance

/-- If no `-->` occurs at or after the scanning position, the comment
scanner consumes the whole remainder as an `Error`. -/
theorem comment_not_found {s : Tokenizer} :
    ∀ n (rest : List Byte) (p : Nat), rest.length ≤ n →
      rest = s.rest.drop p →
      (∀ i, p ≤ i → ¬ dashDashGt s.rest i) →
      s.comment rest = .ok s.rest_err := by
  intro n
  induction n with
  | zero =>
    intro rest p hlen _ _
    have hrest : rest = [] := by
      cases rest with
      | nil => rfl
      | cons a l => simp at hlen
    subst hrest
    exact comment_eq_none rfl
  | succ n ih =>
    intro rest p hlen hdrop hno
    have habs : ∀ j, rest[j]? = s.rest[p + j]? := by
      intro j
      rw [hdrop, List.getElem?_drop]
    cases hm : memchr 45 rest with
    | none => exact comment_eq_none hm
    | some pos =>
      have hlt : pos < rest.length := memchrBy_lt hm
      cases hd : rest.drop (pos + 1) with
      | nil => exact comment_eq_nil hm hd
      | cons chr2 rest2 =>
        have hdl : rest2.length + 1 = rest.length - (pos + 1) := by
          have := congrArg List.length hd
          simp at this
          omega
        have h45a : s.rest[p + pos]? = some 45 := by
          obtain ⟨b, hb, hfb⟩ := memchrBy_get hm
          simp at hfb
          rw [hfb] at hb
          rw [← habs pos]
          exact hb
        have hchr2 : s.rest[p + pos + 1]? = some chr2 := by
          have h0 : (rest.drop (pos + 1))[0]? = some chr2 := by
            rw [hd]
            simp
          rw [List.getElem?_drop] at h0
          rw [habs] at h0
          have he : p + (pos + 1 + 0) = p + pos + 1 := by omega
          rw [he] at h0
          exact h0
        have hrest2 : rest2 = rest.drop (pos + 2) := by
          have h0 : rest2 = (rest.drop (pos + 1)).drop 1 := by
            rw [hd]
            simp
          rw [h0, List.drop_drop]
        have hcr : chr2 :: rest2 = s.rest.drop (p + pos + 1) := by
          rw [← hd, hdrop, List.drop_drop]
          have he : p + (pos + 1) = p + pos + 1 := by omega
          rw [he]
        rw [comment_eq_cons hm hd]
        by_cases hc : chr2 = 45
        · by_cases hpre : List.isPrefixOf [62] rest2 = true
          · exfalso
            apply hno (p + pos) (by omega)
            have h62 : s.rest[p + pos + 2]? = some 62 := by
              have h0 : rest2[0]? = some 62 := isPrefixOf62.mp hpre
              rw [hrest2, List.getElem?_drop, habs] at h0
              have he : p + (pos + 2 + 0) = p + pos + 2 := by omega
              rw [he] at h0
              exact h0
            exact ⟨h45a, by rw [hchr2, hc], h62⟩
          · subst hc
            simp only [hpre, Bool.false_eq_true, if_false, if_true]
            exact ih (45 :: rest2) (p + pos + 1) (by simp; omega) hcr
              (by
                intro i hi
                exact hno i (by omega))
        · simp only [hc, if_false]
          exact ih (chr2 :: rest2) (p + pos + 1) (by simp; omega) hcr
            (by
              intro i hi
              exact hno i (by omega))

theorem getElem?_some_lt {l : List Byte} {i : Nat} {b : Byte}
    (h : l[i]? = some b) : i < l.length := by
  rcases Nat.lt_or_ge i l.length with h1 | h1
  · exact h1
  · rw [List.getElem?_eq_none h1] at h
    cases h

/-- If the earliest `-->` at or after the scanning position is at index `i`,
the comment scanner succeeds with the span running through that `-->`. -/
theorem comment_found {s : Tokenizer} :
    ∀ n (rest : List Byte) (p i : Nat), rest.length ≤ n →
      rest = s.rest.drop p →
      p ≤ i → dashDashGt s.rest i →
      (∀ j, p ≤ j → j < i → ¬ dashDashGt s.rest j) →
      s.comment rest = .ok (Token.Comment (s.rest.take (i + 3)),
                            { s with rest := s.rest.drop (i + 3) }) := by
  intro n
  induction n with
  | zero =>
    intro rest p i hlen hdrop hpi hq hmin
    exfalso
    have hrest : rest = [] := by
      cases rest with
      | nil => rfl
      | cons a l => simp at hlen
    have hlp : s.rest.length ≤ p := by
      have := congrArg List.length hdrop
      rw [hrest] at this
      simp at this
      omega
    have hi : i < s.rest.length := getElem?_some_lt hq.1
    omega
  | succ n ih =>
    intro rest p i hlen hdrop hpi hq hmin
    have habs : ∀ j, rest[j]? = s.rest[p + j]? := by
      intro j
      rw [hdrop, List.getElem?_drop]
    cases hm : memchr 45 rest with
    | none =>
      exfalso
      have hi : i < s.rest.length := getElem?_some_lt hq.1
      have hri : rest[i - p]? = some 45 := by
        rw [habs]
        have he : p + (i - p) = i := by omega
        rw [he]
        exact hq.1
      obtain ⟨p', hp', _⟩ := memchrBy_of_get (f := fun b => b = 45) hri (by simp)
      unfold memchr at hm
      rw [hm] at hp'
      cases hp'
    | some pos =>
      have hlt : pos < rest.length := memchrBy_lt hm
      have h45a : s.rest[p + pos]? = some 45 := by
        obtain ⟨b, hb, hfb⟩ := memchrBy_get hm
        simp at hfb
        rw [hfb] at hb
        rw [← habs pos]
        exact hb
      have hppi : p + pos ≤ i := by
        rcases Nat.lt_or_ge i (p + pos) with h1 | h1
        · exfalso
          have hri : rest[i - p]? = some 45 := by
            rw [habs]
            have he : p + (i - p) = i := by omega
            rw [he]
            exact hq.1
          have := memchrBy_before hm (i - p) (by omega) 45 hri
          simp at this
        · exact h1
      cases hd : rest.drop (pos + 1) with
      | nil =>
        exfalso
        have hrl : rest.length = pos + 1 := by
          have := congrArg List.length hd
          simp at this
          omega
        have hple : p < s.rest.length := by
          have h0 : rest ≠ [] := by
            intro h0
            rw [h0] at hlt
            simp at hlt
          have h1 := congrArg List.length hdrop
          simp at h1
          rcases Nat.lt_or_ge p s.rest.length with h2 | h2
          · exact h2
          · exfalso
            apply h0
            rw [hdrop]
            exact List.drop_eq_nil_of_le h2
        have hlen2 : s.rest.length = p + pos + 1 := by
          have h1 := congrArg List.length hdrop
          simp at h1
          omega
        have hi1 : i + 1 < s.rest.length := getElem?_some_lt hq.2.1
        omega
      | cons chr2 rest2 =>
        have hdl : rest2.length + 1 = rest.length - (pos + 1) := by
          have := congrArg List.length hd
          simp at this
          omega
        have hchr2 : s.rest[p + pos + 1]? = some chr2 := by
          have h0 : (rest.drop (pos + 1))[0]? = some chr2 := by
            rw [hd]
            simp
          rw [List.getElem?_drop] at h0
          rw [habs] at h0
          have he : p + (pos + 1 + 0) = p + pos + 1 := by omega
          rw [he] at h0
          exact h0
        have hrest2 : rest2 = rest.drop (pos + 2) := by
          have h0 : rest2 = (rest.drop (pos + 1)).drop 1 := by
            rw [hd]
            simp
          rw [h0, List.drop_drop]
        have hcr : chr2 :: rest2 = s.rest.drop (p + pos + 1) := by
          rw [← hd, hdrop, List.drop_drop]
          have he : p + (pos + 1) = p + pos + 1 := by omega
          rw [he]
        have hr2d : rest2 = s.rest.drop (p + pos + 2) := by
          rw [hrest2, hdrop, List.drop_drop]
          have he : p + (pos + 2) = p + pos + 2 := by omega
          rw [he]
        have hr2eq : rest2[0]? = s.rest[p + pos + 2]? := by
          rw [hr2d, List.getElem?_drop]
        rw [comment_eq_cons hm hd]
        by_cases hc : chr2 = 45
        · by_cases hpre : List.isPrefixOf [62] rest2 = true
          · have h62 : s.rest[p + pos + 2]? = some 62 := by
              rw [← hr2eq]
              exact isPrefixOf62.mp hpre
            have hpatt : dashDashGt s.rest (p + pos) :=
              ⟨h45a, by rw [hchr2, hc], h62⟩
            have hie : i = p + pos := by
              rcases Nat.lt_or_ge (p + pos) i with h1 | h1
              · exact absurd hpatt (hmin (p + pos) (by omega) h1)
              · omega
            have hi2lt : p + pos + 2 < s.rest.length := getElem?_some_lt h62
            have hr2l : rest2.length = s.rest.length - (p + pos + 2) := by
              rw [hr2d]
              simp
            have hmid : s.rest.length - (rest2.length - 1) = i + 3 := by omega
            subst hc
            simp only [hpre, if_true, hmid]
          · have hnot : ¬ dashDashGt s.rest (p + pos) := by
              rintro ⟨-, -, h62'⟩
              rw [← hr2eq] at h62'
              exact hpre (isPrefixOf62.mpr h62')
            have hge : p + pos + 1 ≤ i := by
              rcases Nat.lt_or_ge i (p + pos + 1) with h1 | h1
              · exfalso
                have he : i = p + pos := by omega
                exact hnot (he ▸ hq)
              · exact h1
            subst hc
            simp only [hpre, Bool.false_eq_true, if_false, if_true]
            exact ih (45 :: rest2) (p + pos + 1) i (by simp; omega) hcr hge hq
              (fun j hj1 hj2 => hmin j (by omega) hj2)
        · have hnot : ¬ dashDashGt s.rest (p + pos) := by
            rintro ⟨-, h45', -⟩
            rw [hchr2] at h45'
            injection h45' with h45'
            exact hc h45'
          have hge : p + pos + 1 ≤ i := by
            rcases Nat.lt_or_ge i (p + pos + 1) with h1 | h1
            · exfalso
              have he : i = p + pos := by omega
              exact hnot (he ▸ hq)
            · exact h1
          simp only [hc, if_false]
          exact ih (chr2 :: rest2) (p + pos + 1) i (by simp; omega) hcr hge hq
            (fun j hj1 hj2 => hmin j (by omega) hj2)

/-- On a remainder starting with `<!--` the dispatcher routes to the
comment scanner positioned just after the opener. -/
theorem next_comment {s : Tokenizer} {body : List Byte}
    (h : s.rest = 60 :: 33 :: 45 :: 45 :: body) :
    s.next = ofScan (s.comment body) := by
  have h0 : s.rest[0]? = some 60 := by
    rw [h]
    simp
  have hmark : (match s.depth with
      | 0 => memchr2 60 38 s.rest
      | _ + 1 => memchr3 60 38 93 s.rest) = some 0 := by
    cases s.depth with
    | zero =>
      exact memchrBy_eq_of h0 (by simp) (fun j hj c _ => absurd hj (Nat.not_lt_zero j))
    | succ n =>
      exact memchrBy_eq_of h0 (by simp) (fun j hj c _ => absurd hj (Nat.not_lt_zero j))
  have hs1 : s.structure_ = s.builtin (45 :: 45 :: body) := by
    unfold Tokenizer.structure_
    rw [sliceFromE_ok (by rw [h]; simp)]
    have hdrop1 : s.rest.drop 1 = 33 :: 45 :: 45 :: body := by
      rw [h]
      rfl
    rw [hdrop1]
    dsimp only
    rw [if_pos rfl]
  have hs2 : s.builtin (45 :: 45 :: body) = s.comment body := by
    unfold Tokenizer.builtin
    rw [if_pos (by simp [List.isPrefixOf])]
    rw [sliceFromE_ok (by simp)]
    dsimp only
    congr 1
  unfold Tokenizer.next
  rw [hmark]
  dsimp only
  rw [if_neg (by omega), indexE_ok h0]
  dsimp only
  rw [if_neg (show ¬((60 : Byte) = 38) by decide), if_pos rfl, hs1, hs2]

theorem mem_of_getElem?_eq {l : List Byte} {i : Nat} {b : Byte}
    (h : l[i]? = some b) : b ∈ l := by
  have hlt := getElem?_some_lt h
  rw [List.getElem?_eq_getElem hlt] at h
  injection h with h
  rw [← h]
  exact List.getElem_mem hlt

/-- A byte the top-level dispatcher treats as a structural marker: `<` (60),
`&` (38), and `]` (93) when the depth counter is positive. -/
def isMarker (depth : Nat) (b : Byte) : Prop :=
  b = 60 ∨ b = 38 ∨ (0 < depth ∧ b = 93)

instance (depth : Nat) (b : Byte) : Decidable (isMarker depth b) := by
  unfold isMarker
  infer_instance

/-- Claim C1, as frozen, fails on the code: on input `<!x` the tokenizer
hits the `todo!()` branch (a panic), so no token is produced and the
concatenation of produced spans is empty rather than the input. -/
theorem c1_counterexample :
    spanConcat ((Tokenizer.new [60, 33, 120]).run).1 ≠ [60, 33, 120] := by
  have h1 : (Tokenizer.new [60, 33, 120]).next = .crash .todoUnhandled := rfl
  rw [run_crash h1]
  simp [spanConcat]

/-- Claim C1 (amended): for every input whose tokenization runs to
completion (the iteration ends with the end-of-sequence signal instead of
the unhandled-byte panic), concatenating the byte spans of all produced
tokens, in production order, reproduces the original input exactly. -/
theorem c1_partition (input : List Byte)
    (h : ((Tokenizer.new input).run).2 = .finished) :
    spanConcat ((Tokenizer.new input).run).1 = input :=
  run_partition input.length (Tokenizer.new input) le_rfl h

theorem c1_partition_witness :
    ((Tokenizer.new [60, 120, 62]).run).2 = .finished ∧
    spanConcat ((Tokenizer.new [60, 120, 62]).run).1 = [60, 120, 62] := by
  have h1 : (Tokenizer.new [60, 120, 62]).next
      = .tok (Token.Element [60, 120, 62]) ⟨[], 0⟩ := rfl
  have h2 : Tokenizer.run ⟨[], 0⟩ = ([], .finished) := run_done (next_nil rfl)
  have hfin : ((Tokenizer.new [60, 120, 62]).run).2 = .finished := by
    rw [run_tok h1, h2]
  exact ⟨hfin, c1_partition [60, 120, 62] hfin⟩

/-- Claim C2: every call to `next` that produces a token strictly shrinks
the unconsumed remainder, and consequently a full run of any finite input
produces at most input-length tokens. -/
theorem c2_monotonic_consumption :
    (∀ (s : Tokenizer) (t : Token) (s' : Tokenizer),
        s.next = .tok t s' → s'.rest.length < s.rest.length) ∧
    (∀ input : List Byte,
        ((Tokenizer.new input).run).1.length ≤ input.length) :=
  ⟨fun _ _ _ h => next_tok_rest_lt h,
   fun input => run_length input.length (Tokenizer.new input) le_rfl⟩

theorem c2_witness :
    (Tokenizer.new [60, 120, 62]).next = .tok (Token.Element [60, 120, 62]) ⟨[], 0⟩ ∧
    ([] : List Byte).length < ([60, 120, 62] : List Byte).length :=
  ⟨rfl, c2_monotonic_consumption.1 (Tokenizer.new [60, 120, 62])
          (Token.Element [60, 120, 62]) ⟨[], 0⟩ rfl⟩

/-- Claim C3: an `Error` token carries the entire remainder as it was at
the point of failure, leaves the remainder empty, and every subsequent
call to `next` signals end of sequence. -/
theorem c3_terminal_error :
    ∀ (s : Tokenizer) (sp : List Byte) (s' : Tokenizer),
      s.next = .tok (Token.Error sp) s' →
      sp = s.rest ∧ s'.rest = [] ∧ s'.next = .done := by
  intro s sp s' h
  obtain ⟨_, _, _, herr⟩ := next_spec h
  obtain ⟨h1, h2⟩ := herr sp rfl
  exact ⟨h1, h2, next_nil h2⟩

theorem c3_witness :
    (⟨[38, 97], 0⟩ : Tokenizer).next = .tok (Token.Error [38, 97]) ⟨[], 0⟩ ∧
    ([38, 97] = (⟨[38, 97], 0⟩ : Tokenizer).rest ∧ ([] : List Byte) = [] ∧
      Tokenizer.next ⟨[], 0⟩ = .done) := by
  refine ⟨rfl, ?_⟩
  have h := c3_terminal_error ⟨[38, 97], 0⟩ [38, 97] ⟨[], 0⟩ rfl
  exact ⟨h.1, rfl, h.2.2⟩

/-- Claim C4 (the spec's required behavior, which the code violates):
dispatching on `<!` followed by a byte that is neither `-` of `--` nor an
uppercase ASCII letter reaches the `todo!()` place-holder, i.e. the model
crashes instead of producing the terminal `Error` token the spec
requires.  Input `<!x` (bytes `[60, 33, 120]`) is such an input. -/
theorem c4_todo_crash :
    (Tokenizer.new [60, 33, 120]).next = .crash .todoUnhandled := rfl

/-- Claim C5: on a remainder opening with `<!--`, the comment scanner
terminates the token at the first occurrence of the exact three-byte
sequence `-->` at or after the end of the opener, spanning `<!--` through
that `-->` inclusive; if no such sequence exists the whole remainder
becomes a terminal `Error`; and input `<!-- note -->` yields the single
token `Comment("<!-- note -->")`. -/
theorem c5_comment_scan :
    (∀ (s : Tokenizer) (body : List Byte) (i : Nat),
        s.rest = 60 :: 33 :: 45 :: 45 :: body →
        4 ≤ i → dashDashGt s.rest i →
        (∀ j, 4 ≤ j → j < i → ¬ dashDashGt s.rest j) →
        s.next = .tok (Token.Comment (s.rest.take (i + 3)))
                      { s with rest := s.rest.drop (i + 3) }) ∧
    (∀ (s : Tokenizer) (body : List Byte),
        s.rest = 60 :: 33 :: 45 :: 45 :: body →
        (∀ j, 4 ≤ j → ¬ dashDashGt s.rest j) →
        s.next = .tok (Token.Error s.rest) { s with rest := [] }) ∧
    ((Tokenizer.new [60, 33, 45, 45, 32, 110, 111, 116, 101, 32, 45, 45, 62]).run
      = ([Token.Comment [60, 33, 45, 45, 32, 110, 111, 116, 101, 32, 45, 45, 62]],
         .finished)) := by
  have hmain : ∀ (s : Tokenizer) (body : List Byte) (i : Nat),
      s.rest = 60 :: 33 :: 45 :: 45 :: body →
      4 ≤ i → dashDashGt s.rest i →
      (∀ j, 4 ≤ j → j < i → ¬ dashDashGt s.rest j) →
      s.next = .tok (Token.Comment (s.rest.take (i + 3)))
                    { s with rest := s.rest.drop (i + 3) } := by
    intro s body i hrest h4 hq hmin
    rw [next_comment hrest]
    have hbody : body = s.rest.drop 4 := by
      rw [hrest]
      rfl
    rw [hbody]
    rw [comment_found (s.rest.drop 4).length (s.rest.drop 4) 4 i le_rfl rfl h4 hq hmin]
    rfl
  have herr : ∀ (s : Tokenizer) (body : List Byte),
      s.rest = 60 :: 33 :: 45 :: 45 :: body →
      (∀ j, 4 ≤ j → ¬ dashDashGt s.rest j) →
      s.next = .tok (Token.Error s.rest) { s with rest := [] } := by
    intro s body hrest hno
    rw [next_comment hrest]
    have hbody : body = s.rest.drop 4 := by
      rw [hrest]
      rfl
    rw [hbody]
    rw [comment_not_found (s.rest.drop 4).length (s.rest.drop 4) 4 le_rfl rfl
        (fun i hi => hno i hi)]
    rfl
  refine ⟨hmain, herr, ?_⟩
  have h1 := hmain (Tokenizer.new [60, 33, 45, 45, 32, 110, 111, 116, 101, 32, 45, 45, 62])
    [32, 110, 111, 116, 101, 32, 45, 45, 62] 10 rfl (by omega) (by decide)
    (by
      intro j h4 hj
      interval_cases j <;> decide)
  rw [run_tok h1]
  have h2 : Tokenizer.run
      { Tokenizer.new [60, 33, 45, 45, 32, 110, 111, 116, 101, 32, 45, 45, 62] with
        rest := (Tokenizer.new
          [60, 33, 45, 45, 32, 110, 111, 116, 101, 32, 45, 45, 62]).rest.drop (10 + 3) }
      = ([], .finished) := run_done (next_nil rfl)
  rw [h2]
  decide

theorem c5_witness :
    (⟨[60, 33, 45, 45, 120, 45, 45, 62], 0⟩ : Tokenizer).next
      = .tok (Token.Comment [60, 33, 45, 45, 120, 45, 45, 62]) ⟨[], 0⟩ := by
  have h := c5_comment_scan.1 ⟨[60, 33, 45, 45, 120, 45, 45, 62], 0⟩
    [120, 45, 45, 62] 5 rfl (by omega) (by decide)
    (by
      intro j h4 hj
      interval_cases j
      decide)
  simpa using h

/-- Claim C6: one production step never decreases the depth counter, and
it increments it by exactly one precisely when the produced token is a
`Decl` whose span ends with `[` (in particular a `DeclEnd` token leaves
the counter unchanged). -/
theorem c6_depth_monotonic :
    ∀ (s : Tokenizer) (t : Token) (s' : Tokenizer),
      s.next = .tok t s' →
      s.depth ≤ s'.depth ∧ s'.depth = declBump s.depth t := by
  intro s t s' h
  have h1 := ((next_spec h).2.2).1
  refine ⟨?_, h1⟩
  rw [h1]
  cases t <;> simp [declBump]
  split <;> omega

theorem c6_witness :
    (⟨[60, 33, 68, 91], 0⟩ : Tokenizer).next
      = .tok (Token.Decl [60, 33, 68, 91]) ⟨[], 1⟩ ∧
    (0 : Nat) ≤ 1 ∧ (1 : Nat) = declBump 0 (Token.Decl [60, 33, 68, 91]) := by
  refine ⟨rfl, ?_⟩
  have h := c6_depth_monotonic ⟨[60, 33, 68, 91], 0⟩ (Token.Decl [60, 33, 68, 91]) ⟨[], 1⟩ rfl
  exact h

/-- Claim C7: the top-level dispatcher signals exhaustion on an empty
remainder; with no marker byte (`<`, `&`, plus `]` exactly when the depth
counter is positive) it returns the whole remainder as a `Span` and is
exhausted afterwards; and with the earliest marker at a positive index it
returns exactly the bytes before the marker as a `Span`, leaving the
marker unconsumed. -/
theorem c7_dispatcher :
    ∀ s : Tokenizer,
      (s.rest = [] → s.next = .done) ∧
      (s.rest ≠ [] → (∀ b ∈ s.rest, ¬ isMarker s.depth b) →
        s.next = .tok (Token.Span s.rest) { s with rest := [] } ∧
        Tokenizer.next { s with rest := [] } = .done) ∧
      (∀ i b, 0 < i → s.rest[i]? = some b → isMarker s.depth b →
        (∀ j c, j < i → s.rest[j]? = some c → ¬ isMarker s.depth c) →
        s.next = .tok (Token.Span (s.rest.take i)) { s with rest := s.rest.drop i }) := by
  intro s
  refine ⟨next_nil, ?_, ?_⟩
  · intro hne hno
    have hnone : (match s.depth with
        | 0 => memchr2 60 38 s.rest
        | _ + 1 => memchr3 60 38 93 s.rest) = none := by
      cases hd : s.depth with
      | zero =>
        cases hm : memchr2 60 38 s.rest with
        | none => rfl
        | some pos =>
          exfalso
          obtain ⟨b, hb, hfb⟩ := memchrBy_get hm
          apply hno b (mem_of_getElem?_eq hb)
          simp at hfb
          unfold isMarker
          rcases hfb with h1 | h1
          · exact Or.inl h1
          · exact Or.inr (Or.inl h1)
      | succ n =>
        cases hm : memchr3 60 38 93 s.rest with
        | none => rfl
        | some pos =>
          exfalso
          obtain ⟨b, hb, hfb⟩ := memchrBy_get hm
          apply hno b (mem_of_getElem?_eq hb)
          simp at hfb
          unfold isMarker
          rcases hfb with (h1 | h1) | h1
          · exact Or.inl h1
          · exact Or.inr (Or.inl h1)
          · exact Or.inr (Or.inr ⟨by rw [hd]; omega, h1⟩)
    refine ⟨?_, next_nil rfl⟩
    unfold Tokenizer.next
    rw [hnone]
    dsimp only
    have hlen : s.rest.length > 0 := List.length_pos.mpr hne
    rw [if_pos hlen, splitAtE_ok le_rfl]
    rw [List.take_length, List.drop_length]
  · intro i b hi hb hmark hmin
    have hblt := getElem?_some_lt hb
    have hmark_eq : (match s.depth with
        | 0 => memchr2 60 38 s.rest
        | _ + 1 => memchr3 60 38 93 s.rest) = some i := by
      cases hd : s.depth with
      | zero =>
        refine memchrBy_eq_of hb ?_ ?_
        · simp
          unfold isMarker at hmark
          rcases hmark with h1 | h1 | ⟨hpos, _⟩
          · exact Or.inl h1
          · exact Or.inr h1
          · rw [hd] at hpos
            omega
        · intro j hj c hc
          have hnm := hmin j c hj hc
          unfold isMarker at hnm
          push_neg at hnm
          simp
          exact ⟨hnm.1, hnm.2.1⟩
      | succ n =>
        refine memchrBy_eq_of hb ?_ ?_
        · simp
          unfold isMarker at hmark
          rcases hmark with h1 | h1 | ⟨_, h1⟩
          · exact Or.inl (Or.inl h1)
          · exact Or.inl (Or.inr h1)
          · exact Or.inr h1
        · intro j hj c hc
          have hnm := hmin j c hj hc
          unfold isMarker at hnm
          push_neg at hnm
          simp
          refine ⟨⟨hnm.1, hnm.2.1⟩, ?_⟩
          intro h93
          exact absurd h93 (hnm.2.2 (by rw [hd]; omega))
    unfold Tokenizer.next
    rw [hmark_eq]
    dsimp only
    rw [if_pos hi, splitAtE_ok (le_of_lt hblt)]

theorem c7_witness :
    (⟨[97, 60, 98], 0⟩ : Tokenizer).next
      = .tok (Token.Span [97]) ⟨[60, 98], 0⟩ := by
  have h := (c7_dispatcher ⟨[97, 60, 98], 0⟩).2.2 1 60 (by omega) (by decide)
    (by decide)
    (by
      intro j c hj hc
      interval_cases j
      simp at hc
      rw [← hc]
      decide)
  simpa using h

/-- Claim C8: every token produced by `next` that is not an `Error` token
carries a non-empty span. -/
theorem c8_nonempty :
    ∀ (s : Tokenizer) (t : Token) (s' : Tokenizer),
      s.next = .tok t s' → (∀ sp, t ≠ Token.Error sp) → t.span ≠ [] := by
  intro s t s' h _
  exact (next_spec h).2.1

theorem c8_witness :
    (Tokenizer.new [60, 121, 62]).next = .tok (Token.Element [60, 121, 62]) ⟨[], 0⟩ ∧
    Token.span (Token.Element [60, 121, 62]) ≠ [] := by
  refine ⟨rfl, ?_⟩
  exact c8_nonempty (Tokenizer.new [60, 121, 62]) (Token.Element [60, 121, 62]) ⟨[], 0⟩
    rfl (fun sp hsp => by cases hsp)

theorem not_marker_of_before {s : Tokenizer} {pos j : Nat} {b : Byte}
    (hm : (match s.depth with
           | 0 => memchr2 60 38 s.rest
           | _ + 1 => memchr3 60 38 93 s.rest) = some pos)
    (hj : j < pos) (hb : s.rest[j]? = some b) : ¬ isMarker s.depth b := by
  cases hd : s.depth with
  | zero =>
    rw [hd] at hm
    have hf := memchrBy_before hm j hj b hb
    simp at hf
    unfold isMarker
    rintro (h1 | h1 | ⟨h0, _⟩)
    · exact hf.1 h1
    · exact hf.2 h1
    · omega
  | succ n =>
    rw [hd] at hm
    have hf := memchrBy_before hm j hj b hb
    simp at hf
    unfold isMarker
    rintro (h1 | h1 | ⟨_, h1⟩)
    · exact hf.1.1 h1
    · exact hf.1.2 h1
    · exact hf.2 h1

theorem not_marker_of_none {s : Tokenizer} {b : Byte}
    (hm : (match s.depth with
           | 0 => memchr2 60 38 s.rest
           | _ + 1 => memchr3 60 38 93 s.rest) = none)
    (hb : b ∈ s.rest) : ¬ isMarker s.depth b := by
  cases hd : s.depth with
  | zero =>
    rw [hd] at hm
    have hf := memchrBy_none hm b hb
    simp at hf
    unfold isMarker
    rintro (h1 | h1 | ⟨h0, _⟩)
    · exact hf.1 h1
    · exact hf.2 h1
    · omega
  | succ n =>
    rw [hd] at hm
    have hf := memchrBy_none hm b hb
    simp at hf
    unfold isMarker
    rintro (h1 | h1 | ⟨_, h1⟩)
    · exact hf.1.1 h1
    · exact hf.1.2 h1
    · exact hf.2 h1

/-- Claim C9: a `Span` token never contains `<` or `&`, and a `Span`
produced while the depth counter is positive additionally never
contains `]`. -/
theorem c9_span_no_markers :
    ∀ (s : Tokenizer) (sp : List Byte) (s' : Tokenizer),
      s.next = .tok (Token.Span sp) s' →
      (∀ b ∈ sp, b ≠ 60 ∧ b ≠ 38) ∧ (0 < s.depth → ∀ b ∈ sp, b ≠ 93) := by
  intro s sp s' h
  suffices key : ∀ b ∈ sp, ¬ isMarker s.depth b by
    constructor
    · intro b hb
      exact ⟨fun he => key b hb (Or.inl he),
             fun he => key b hb (Or.inr (Or.inl he))⟩
    · intro hd b hb
      exact fun he => key b hb (Or.inr (Or.inr ⟨hd, he⟩))
  unfold Tokenizer.next at h
  split at h
  · rename_i pos hm
    have hlt : pos < s.rest.length := marker_lt hm
    have hne : s.rest ≠ [] := by
      intro h0
      rw [h0] at hlt
      simp at hlt
    by_cases hpos : pos > 0
    · rw [if_pos hpos, splitAtE_ok (le_of_lt hlt)] at h
      injection h with h1 h2
      injection h1 with h1
      intro b hb
      rw [← h1] at hb
      obtain ⟨j, hj, hbj⟩ := mem_take_getElem? hb
      exact not_marker_of_before hm hj hbj
    · rw [if_neg hpos] at h
      have hpos0 : pos = 0 := by omega
      subst hpos0
      obtain ⟨first, hf⟩ : ∃ b, s.rest[0]? = some b := by
        cases hr : s.rest with
        | nil => exact absurd hr hne
        | cons a l => exact ⟨a, by simp [hr]⟩
      rw [indexE_ok hf] at h
      dsimp only at h
      by_cases h38 : first = 38
      · rw [if_pos h38] at h
        obtain ⟨t0, s0, hok, hscan⟩ := entity_scan hne
        rw [hok] at h
        simp only [ofScan] at h
        injection h with h1 h2
        exact absurd h1 (hscan.2 sp)
      · rw [if_neg h38] at h
        by_cases h60 : first = 60
        · rw [if_pos h60] at h
          rcases structure_scan hne with ⟨t0, s0, hok, hscan⟩ | ⟨herr, _⟩
          · rw [hok] at h
            simp only [ofScan] at h
            injection h with h1 h2
            exact absurd h1 (hscan.2 sp)
          · rw [herr] at h
            simp only [ofScan] at h
            cases h
        · rw [if_neg h60] at h
          by_cases h93 : first = 93
          · rw [if_pos h93] at h
            obtain ⟨t0, s0, hok, hscan⟩ := decl_end_scan hne
            rw [hok] at h
            simp only [ofScan] at h
            injection h with h1 h2
            exact absurd h1 (hscan.2 sp)
          · rw [if_neg h93] at h
            cases h
  · rename_i hm
    by_cases hlen : s.rest.length > 0
    · rw [if_pos hlen, splitAtE_ok le_rfl] at h
      injection h with h1 h2
      injection h1 with h1
      intro b hb
      rw [← h1, List.take_length] at hb
      exact not_marker_of_none hm hb
    · rw [if_neg hlen] at h
      cases h

theorem c9_witness :
    (⟨[97, 60], 0⟩ : Tokenizer).next = .tok (Token.Span [97]) ⟨[60], 0⟩ ∧
    ((∀ b ∈ [97], b ≠ 60 ∧ b ≠ 38) ∧
     (0 < (0 : Nat) → ∀ b ∈ [97], b ≠ 93)) := by
  refine ⟨rfl, ?_⟩
  exact c9_span_no_markers ⟨[97, 60], 0⟩ [97] ⟨[60], 0⟩ rfl

/-- Claim C10: the only panicking branch `next` can ever reach is the
`todo!()` place-holder, and only when dispatching on a remainder of the
form `<!` followed by a byte that neither opens a comment (`--`) nor a
declaration (uppercase ASCII); every checked slice index, range slice,
`split_at` and the `unreachable!` arm stay panic-free, so on inputs that
never reach that dispatch every call to `next` returns normally. -/
theorem c10_no_panic :
    ∀ (s : Tokenizer) (k : PanicKind),
      s.next = .crash k →
      k = .todoUnhandled ∧
      ∃ b tail, s.rest = 60 :: 33 :: b :: tail ∧
        List.isPrefixOf [45, 45] (b :: tail) = false ∧ ¬(65 ≤ b ∧ b ≤ 90) :=
  fun _ _ h => next_crash h

theorem c10_witness :
    PanicKind.todoUnhandled = PanicKind.todoUnhandled ∧
    ∃ b tail, (⟨[60, 33, 122], 0⟩ : Tokenizer).rest = 60 :: 33 :: b :: tail ∧
      List.isPrefixOf [45, 45] (b :: tail) = false ∧ ¬(65 ≤ b ∧ b ≤ 90) :=
  c10_no_panic ⟨[60, 33, 122], 0⟩ .todoUnhandled rfl

end Xtoken
